import Mathlib

/-!
A shallow embedding of the OpenAL Soft mixing pipeline (Alc/alu.cpp,
Alc/panning.cpp, Alc/bformatdec.cpp, Alc/uhjfilter.cpp) in Lean 4, together
with theorems settling the specification claims about it.

Floating-point arithmetic in the source is modelled exactly over `ℚ`
(respectively over an arbitrary linear ordered field where a statement
needs transcendental inputs): the modelled operations are the exact field
operations, so the theorems speak about the arithmetic structure of the
code (branching, clamping, ordering, accumulation), not about rounding of
individual float operations.
-/

namespace OpenAL

/-- Modelled from the spec: the `minf` helper of the missing alnumeric
header (`minf(a, b)` returns the smaller value). -/
def minf (a b : ℚ) : ℚ := if a > b then b else a

/-- Modelled from the spec: the `maxf` helper of the missing alnumeric
header (`maxf(a, b)` returns the larger value). -/
def maxf (a b : ℚ) : ℚ := if a < b then b else a

/-- Modelled from the spec: the `clampf` helper of the missing alnumeric
header, `clampf(val, min, max) = minf(max, maxf(min, val))`. -/
def clampf (val mn mx : ℚ) : ℚ := minf mx (maxf mn val)

/-- Modelled from the spec: the `lerp` helper of the missing alu header,
the linear interpolation `lerp(a, b, t) = a + (b - a)·t` used by the
distance and cone computations (spec §4.5 writes `lerp(ref, d, rolloff)`). -/
def lerp (a b t : ℚ) : ℚ := a + (b - a) * t

/-- Modelled from the spec: `fastf2i` of the missing alnumeric header,
float-to-int conversion in the default x87/SSE rounding mode, i.e.
round half to even (spec §6: conversion "rounds half-to-even"). -/
def fastf2i (q : ℚ) : ℤ :=
  if q - ⌊q⌋ < 1/2 then ⌊q⌋
  else if 1/2 < q - ⌊q⌋ then ⌊q⌋ + 1
  else if Even ⌊q⌋ then ⌊q⌋ else ⌊q⌋ + 1

/-- Modelled from the spec: `maxi` of the missing alnumeric header. -/
def maxi (a b : ℤ) : ℤ := if a < b then b else a

/-- A three-component vector, the x/y/z part of `alu::Vector` (alu.cpp),
over the scalar type of the embedding (`ℚ`, or `ℝ` where a statement
needs transcendental values). -/
structure Vec3 (α : Type) where
  x : α
  y : α
  z : α

/-- Embeds `aluDotproduct` (alu.cpp) on the three meaningful components. -/
def aluDotproduct {α : Type} [Mul α] [Add α] (a b : Vec3 α) : α :=
  a.x * b.x + a.y * b.y + a.z * b.z

/-- Componentwise vector negation (used to state the claim text's
`-S`). -/
def negV {α : Type} [Neg α] (v : Vec3 α) : Vec3 α := ⟨-v.x, -v.y, -v.z⟩

/-!  ## C4: the device sample clock (aluMixData, Alc/alu.cpp)

Per render quantum the code executes

    device->SamplesDone += SamplesToDo;
    device->ClockBase += std::chrono::seconds{device->SamplesDone / device->Frequency};
    device->SamplesDone %= device->Frequency;

`ClockBase` is a nanoseconds count; `std::chrono::seconds{s}` converts to
`s * 10^9` nanoseconds.  Both counters are modelled as naturals. -/

/-- The device sample-clock state: `SamplesDone` (samples into the current
second) and `ClockBase` (nanoseconds). -/
structure DeviceClock where
  samplesDone : ℕ
  clockBase : ℕ

/-- Embeds the sample-clock advance of one render quantum in `aluMixData`
(Alc/alu.cpp): add the quantum length, roll whole seconds into
`ClockBase`, keep the remainder in `SamplesDone`. -/
def aluAdvanceClock (freq : ℕ) (st : DeviceClock) (todo : ℕ) : DeviceClock :=
  let sd := st.samplesDone + todo
  { samplesDone := sd % freq,
    clockBase := st.clockBase + sd / freq * 1000000000 }

/-! ## C3: the render-quantum event order (aluMixData, Alc/alu.cpp) -/

/-- The observable actions of one render quantum of `aluMixData`
(Alc/alu.cpp), in the order the code performs them. -/
inductive MixEvent
  | clearMix       -- zero the main mix buffers
  | incMixCount    -- IncrementRef(&device->MixCount)
  | processCtx     -- ProcessContext for each context (voices and effects)
  | clockAdvance   -- SamplesDone/ClockBase update
  | postProcess    -- device->PostProcess (HRTF/ambi decode/UHJ/BS2B)
  | stablizer      -- ApplyStablizer
  | compressor     -- device->Limiter->process
  | distComp       -- ApplyDistanceComp
  | dither         -- ApplyDither
  | write          -- interleave and convert into the output buffer
  deriving DecidableEq, Repr

/-- The optional stages of a device, deciding which conditional events of
a quantum of `aluMixData` (Alc/alu.cpp) run. -/
structure DeviceStages where
  hasPostProcess : Bool   -- LIKELY(device->PostProcess)
  hasStablizer : Bool     -- device->Stablizer
  hasLimiter : Bool       -- device->Limiter
  ditherPositive : Bool   -- device->DitherDepth > 0.0f
  hasOutBuffer : Bool     -- LIKELY(OutBuffer)

/-- Embeds the event order of one render quantum of `aluMixData`
(Alc/alu.cpp): clear buffers, increment `MixCount`, process contexts,
advance the clock, increment `MixCount` again, then post-process,
stablizer, limiter, distance compensation, dither and output write. -/
def quantumTrace (d : DeviceStages) : List MixEvent :=
  [MixEvent.clearMix, MixEvent.incMixCount, MixEvent.processCtx,
   MixEvent.clockAdvance, MixEvent.incMixCount]
  ++ (if d.hasPostProcess then [MixEvent.postProcess] else [])
  ++ (if d.hasStablizer then [MixEvent.stablizer] else [])
  ++ (if d.hasLimiter then [MixEvent.compressor] else [])
  ++ [MixEvent.distComp]
  ++ (if d.ditherPositive then [MixEvent.dither] else [])
  ++ (if d.hasOutBuffer then [MixEvent.write] else [])

/-- A device with every optional output stage present. -/
def allStages : DeviceStages :=
  { hasPostProcess := true, hasStablizer := true, hasLimiter := true,
    ditherPositive := true, hasOutBuffer := true }

/-- The number of `MixCount` increments in a trace. -/
def incCount (tr : List MixEvent) : ℕ :=
  tr.countP (fun e => e == MixEvent.incMixCount)

/-- The index of the second `MixCount` increment in a trace. -/
def secondIncIdx (tr : List MixEvent) : ℕ :=
  let k1 := tr.indexOf MixEvent.incMixCount
  k1 + 1 + (tr.drop (k1 + 1)).indexOf MixEvent.incMixCount

/-- Whether any post-processor, dither or output-conversion event occurs
after the second `MixCount` increment of a trace. -/
def outputAfterSecondInc (tr : List MixEvent) : Bool :=
  (tr.drop (secondIncIdx tr + 1)).any
    (fun e => e == MixEvent.postProcess || e == MixEvent.dither ||
      e == MixEvent.write)

/-- C4: For every render quantum of `n` samples at sample rate `freq`, the
sample clock satisfies `SamplesDone_after = (SamplesDone_before + n) % freq`,
and `ClockBase` advances by exactly `(SamplesDone_before + n) / freq` whole
seconds (10⁹ nanoseconds each).  Confirms the claim against the clock
update of `aluMixData` (Alc/alu.cpp). -/
theorem aluMixData_clock_conservation (freq : ℕ) (st : DeviceClock) (n : ℕ) :
    (aluAdvanceClock freq st n).samplesDone = (st.samplesDone + n) % freq ∧
    (aluAdvanceClock freq st n).clockBase =
      st.clockBase + (st.samplesDone + n) / freq * 1000000000 :=
  ⟨rfl, rfl⟩

/-- C3 counterexample: on a device with every optional stage present, the
render quantum of `aluMixData` (Alc/alu.cpp) performs the post-processor,
dither and output-conversion stages after the second `MixCount` increment,
so the claim that the count is incremented back to even only after those
stages have completed is false; the trace also shows the second increment
coming directly after the clock update. -/
theorem aluMixData_second_inc_not_last :
    outputAfterSecondInc (quantumTrace allStages) = true ∧
    quantumTrace allStages =
      [MixEvent.clearMix, MixEvent.incMixCount, MixEvent.processCtx,
       MixEvent.clockAdvance, MixEvent.incMixCount, MixEvent.postProcess,
       MixEvent.stablizer, MixEvent.compressor, MixEvent.distComp,
       MixEvent.dither, MixEvent.write] := by
  constructor <;> rfl

/-- C3 amended: in every render quantum of `aluMixData` (Alc/alu.cpp), the
`MixCount` is incremented exactly twice, the quantum starts with the
buffer clear followed directly by the first increment, the count is odd
exactly while the contexts are processed and the sample clock advanced,
and the second increment (back to even) comes directly after the clock
update and before the post-processor, stablizer, limiter, distance
compensation, dither and output-conversion stages, which all lie strictly
after it. -/
theorem aluMixData_mixCount_brackets_mixing (d : DeviceStages) :
    incCount (quantumTrace d) = 2 ∧
    (quantumTrace d).take 5 =
      [MixEvent.clearMix, MixEvent.incMixCount, MixEvent.processCtx,
       MixEvent.clockAdvance, MixEvent.incMixCount] ∧
    incCount ((quantumTrace d).drop 5) = 0 := by
  obtain ⟨a, b, c, e, f⟩ := d
  cases a <;> cases b <;> cases c <;> cases e <;> cases f <;>
    exact ⟨rfl, rfl, rfl⟩

/-! ## C1: Doppler shift and fixed-point pitch step
(CalcAttnSourceParams, Alc/alu.cpp) -/

/-- Modelled from the spec: `FRACTIONBITS` of the missing headers; the
spec fixes the pitch step at 16.16 fixed point. -/
def FRACTIONBITS : ℕ := 16

/-- Modelled from the spec: `FRACTIONONE = 1 << FRACTIONBITS`. -/
def FRACTIONONE : ℕ := 2 ^ FRACTIONBITS

/-- A float value of the pitch computation: finite, or the positive
infinity produced by the `vss ≥ c` branch. -/
inductive PitchVal
  | fin (q : ℚ)
  | inf
  deriving DecidableEq

/-- The inputs of the Doppler-shift computation in `CalcAttnSourceParams`
(Alc/alu.cpp): the initial pitch `props->Pitch`, the effective Doppler
factor `props->DopplerFactor * Listener.Params.DopplerFactor`, the
listener-space source velocity, listener velocity and source-to-listener
unit vector, and `Listener.Params.SpeedOfSound`. -/
structure DopplerIn where
  pitch : ℚ
  dopplerFactor : ℚ
  sourceVel : Vec3 ℚ
  listenerVel : Vec3 ℚ
  sourceToListener : Vec3 ℚ
  speedOfSound : ℚ

/-- The source velocity component toward the listener, scaled by the
Doppler factor: `vss` in `CalcAttnSourceParams` (Alc/alu.cpp). -/
def vss (p : DopplerIn) : ℚ :=
  aluDotproduct p.sourceVel p.sourceToListener * p.dopplerFactor

/-- The listener velocity component, scaled by the Doppler factor: `vls`
in `CalcAttnSourceParams` (Alc/alu.cpp). -/
def vls (p : DopplerIn) : ℚ :=
  aluDotproduct p.listenerVel p.sourceToListener * p.dopplerFactor

/-- Embeds the velocity-based Doppler adjustment of the pitch in
`CalcAttnSourceParams` (Alc/alu.cpp): when the effective Doppler factor is
positive, `!(vls < c)` zeroes the pitch, `!(vss < c)` makes it infinite,
and otherwise the pitch is multiplied by `(c - vls)/(c - vss)`. -/
def calcDopplerPitch (p : DopplerIn) : PitchVal :=
  if 0 < p.dopplerFactor then
    if ¬ (vls p < p.speedOfSound) then PitchVal.fin 0
    else if ¬ (vss p < p.speedOfSound) then PitchVal.inf
    else PitchVal.fin (p.pitch *
      ((p.speedOfSound - vls p) / (p.speedOfSound - vss p)))
  else PitchVal.fin p.pitch

/-- Embeds the conversion of a finite pitch to the voice's fixed-point
step in `CalcAttnSourceParams` (Alc/alu.cpp): clamp to
`MAX_PITCH << FRACTIONBITS` when the pitch exceeds `MAX_PITCH`, otherwise
round `Pitch * FRACTIONONE` and clamp it below by 1. -/
def stepFromPitch (maxPitch : ℕ) (q : ℚ) : ℤ :=
  if (maxPitch : ℚ) < q then (maxPitch : ℤ) * 2 ^ FRACTIONBITS
  else maxi (fastf2i (q * (FRACTIONONE : ℚ))) 1

/-- Embeds the tail of `CalcAttnSourceParams` (Alc/alu.cpp): the Doppler
pitch is scaled by `ALBuffer->Frequency / Device->Frequency` and then
converted to the 16.16 step; an infinite pitch stays above `MAX_PITCH`
and is clamped to `MAX_PITCH << FRACTIONBITS`. -/
def calcVoiceStep (maxPitch : ℕ) (bufFreq devFreq : ℕ) (p : DopplerIn) : ℤ :=
  match calcDopplerPitch p with
  | PitchVal.inf => (maxPitch : ℤ) * 2 ^ FRACTIONBITS
  | PitchVal.fin q => stepFromPitch maxPitch (q * ((bufFreq : ℚ) / (devFreq : ℚ)))

/-- C1 counterexample: a listener receding at the speed of sound
(`vls = 400 ≥ c = 343`, effective Doppler factor 1) on a voice with pitch
1 and equal buffer and device rates yields a voice step of 1 — the code
zeroes the pitch but then clamps the step below by 1
(`maxi(fastf2i(Pitch*FRACTIONONE), 1)` in Alc/alu.cpp) — so the claimed
resulting step of 0 is false. -/
theorem CalcAttnSourceParams_vls_step_not_zero :
    calcVoiceStep 255 44100 44100
      { pitch := 1, dopplerFactor := 1,
        sourceVel := ⟨0, 0, 0⟩, listenerVel := ⟨0, 0, 400⟩,
        sourceToListener := ⟨0, 0, 1⟩, speedOfSound := 343 } = 1 ∧
    (1 : ℤ) ≠ 0 := by
  constructor
  · norm_num [calcVoiceStep, calcDopplerPitch, vls, vss, aluDotproduct,
      stepFromPitch, fastf2i, maxi, FRACTIONONE, FRACTIONBITS]
  · decide

/-- C1 amended: with a positive effective Doppler factor, if `vls ≥ c`
the voice step is 1 (the minimum step: the pitch is zeroed and the
rounded step clamped below by 1, not 0); if `vls < c ≤ vss` the step is
clamped to `MAX_PITCH << 16`; otherwise the pitch is multiplied by
`(c - vls)/(c - vss)` before scaling by the frequency ratio and
converting to the 16.16 step.  Proved over the embedding of
`CalcAttnSourceParams` (Alc/alu.cpp). -/
theorem CalcAttnSourceParams_doppler_step (maxPitch bufFreq devFreq : ℕ)
    (p : DopplerIn) (hdf : 0 < p.dopplerFactor) :
    (¬ (vls p < p.speedOfSound) →
      calcVoiceStep maxPitch bufFreq devFreq p = 1) ∧
    (vls p < p.speedOfSound → ¬ (vss p < p.speedOfSound) →
      calcVoiceStep maxPitch bufFreq devFreq p =
        (maxPitch : ℤ) * 2 ^ 16) ∧
    (vls p < p.speedOfSound → vss p < p.speedOfSound →
      calcVoiceStep maxPitch bufFreq devFreq p =
        stepFromPitch maxPitch
          (p.pitch * ((p.speedOfSound - vls p) / (p.speedOfSound - vss p)) *
            ((bufFreq : ℚ) / (devFreq : ℚ)))) := by
  refine ⟨fun h1 => ?_, fun h1 h2 => ?_, fun h1 h2 => ?_⟩
  · have hd : calcDopplerPitch p = PitchVal.fin 0 := by
      unfold calcDopplerPitch
      rw [if_pos hdf, if_pos h1]
    unfold calcVoiceStep
    rw [hd]
    show stepFromPitch maxPitch (0 * _) = 1
    rw [zero_mul]
    unfold stepFromPitch
    rw [if_neg (not_lt.mpr (Nat.cast_nonneg maxPitch))]
    norm_num [fastf2i, maxi]
  · have hd : calcDopplerPitch p = PitchVal.inf := by
      unfold calcDopplerPitch
      rw [if_pos hdf, if_neg (not_not_intro h1), if_pos h2]
    unfold calcVoiceStep
    rw [hd]
    rfl
  · have hd : calcDopplerPitch p = PitchVal.fin (p.pitch *
        ((p.speedOfSound - vls p) / (p.speedOfSound - vss p))) := by
      unfold calcDopplerPitch
      rw [if_pos hdf, if_neg (not_not_intro h1), if_neg (not_not_intro h2)]
    unfold calcVoiceStep
    rw [hd]

/-- A nominal Doppler situation: source approaching at 100 units/s,
listener still, speed of sound 343. -/
def dopplerNominalIn : DopplerIn :=
  { pitch := 1, dopplerFactor := 1,
    sourceVel := ⟨0, 0, 100⟩, listenerVel := ⟨0, 0, 0⟩,
    sourceToListener := ⟨0, 0, 1⟩, speedOfSound := 343 }

/-- Witness for the C1 theorem at `dopplerNominalIn`. -/
theorem CalcAttnSourceParams_doppler_step_witness :
    vls dopplerNominalIn < dopplerNominalIn.speedOfSound ∧
    vss dopplerNominalIn < dopplerNominalIn.speedOfSound ∧
    calcVoiceStep 255 44100 22050 dopplerNominalIn =
      stepFromPitch 255 (dopplerNominalIn.pitch *
        ((dopplerNominalIn.speedOfSound - vls dopplerNominalIn) /
          (dopplerNominalIn.speedOfSound - vss dopplerNominalIn)) *
        ((44100 : ℚ) / (22050 : ℚ))) := by
  have h1 : vls dopplerNominalIn < dopplerNominalIn.speedOfSound := by
    norm_num [vls, aluDotproduct, dopplerNominalIn]
  have h2 : vss dopplerNominalIn < dopplerNominalIn.speedOfSound := by
    norm_num [vss, aluDotproduct, dopplerNominalIn]
  exact ⟨h1, h2, (CalcAttnSourceParams_doppler_step 255 44100 22050
    dopplerNominalIn (by norm_num [dopplerNominalIn])).2.2 h1 h2⟩

/-! ## C5: distance attenuation (CalcAttnSourceParams, Alc/alu.cpp) -/

/-- The distance-model selector of `DistanceModel` (the effective model
after the per-source override in `CalcAttnSourceParams`). -/
inductive DistModel
  | inverseClamped | inverse | linearClamped | linear
  | exponentClamped | exponent | disable
  deriving DecidableEq

/-- The source distance properties consumed by the distance-attenuation
switch of `CalcAttnSourceParams` (Alc/alu.cpp). -/
structure DistanceProps where
  refDistance : ℚ
  maxDistance : ℚ
  rolloffFactor : ℚ

/-- The outputs of the distance-attenuation switch: the (possibly
clamped) distance kept in `ClampedDist` and the updated dry and wet
gains. -/
structure AttnGains where
  clampedDist : ℚ
  dryGain : ℚ
  wetGain : List ℚ

/-- Embeds the `Inverse` body of the distance switch in
`CalcAttnSourceParams` (Alc/alu.cpp): when `RefDistance` is not positive
only `ClampedDist` is reset; otherwise each gain is scaled by
`RefDistance / lerp(RefDistance, ClampedDist, rolloff)` whenever that
interpolated distance is positive. -/
def attnInverse (props : DistanceProps) (roomRolloff : List ℚ)
    (cd dryGain : ℚ) (wetGain : List ℚ) : AttnGains :=
  if ¬ (0 < props.refDistance) then ⟨props.refDistance, dryGain, wetGain⟩
  else
    let d := lerp props.refDistance cd props.rolloffFactor
    ⟨cd,
     if 0 < d then dryGain * (props.refDistance / d) else dryGain,
     (wetGain.zip roomRolloff).map (fun grr =>
       let dw := lerp props.refDistance cd grr.2
       if 0 < dw then grr.1 * (props.refDistance / dw) else grr.1)⟩

/-- Embeds the `Linear` body of the distance switch in
`CalcAttnSourceParams` (Alc/alu.cpp). -/
def attnLinear (props : DistanceProps) (roomRolloff : List ℚ)
    (cd dryGain : ℚ) (wetGain : List ℚ) : AttnGains :=
  if ¬ (props.maxDistance ≠ props.refDistance) then
    ⟨props.refDistance, dryGain, wetGain⟩
  else
    let attn := props.rolloffFactor * (cd - props.refDistance) /
      (props.maxDistance - props.refDistance)
    ⟨cd,
     dryGain * maxf (1 - attn) 0,
     (wetGain.zip roomRolloff).map (fun grr =>
       let attnw := grr.2 * (cd - props.refDistance) /
         (props.maxDistance - props.refDistance)
       grr.1 * maxf (1 - attnw) 0)⟩

/-- Embeds the `Exponent` body of the distance switch in
`CalcAttnSourceParams` (Alc/alu.cpp); `powf` stands for `std::pow`. -/
def attnExponent (powf : ℚ → ℚ → ℚ) (props : DistanceProps)
    (roomRolloff : List ℚ) (cd dryGain : ℚ) (wetGain : List ℚ) : AttnGains :=
  if ¬ (0 < cd ∧ 0 < props.refDistance) then
    ⟨props.refDistance, dryGain, wetGain⟩
  else
    ⟨cd,
     dryGain * powf (cd / props.refDistance) (-props.rolloffFactor),
     (wetGain.zip roomRolloff).map (fun grr =>
       grr.1 * powf (cd / props.refDistance) (-grr.2))⟩

/-- Embeds the distance-attenuation switch of `CalcAttnSourceParams`
(Alc/alu.cpp): the clamped variants clamp the distance to
`[RefDistance, MaxDistance]` and skip the body (fall through) only when
`MaxDistance < RefDistance`. -/
def calcDistanceAttn (powf : ℚ → ℚ → ℚ) (model : DistModel)
    (props : DistanceProps) (roomRolloff : List ℚ) (dist dryGain : ℚ)
    (wetGain : List ℚ) : AttnGains :=
  match model with
  | DistModel.inverseClamped =>
      let cd := clampf dist props.refDistance props.maxDistance
      if props.maxDistance < props.refDistance then ⟨cd, dryGain, wetGain⟩
      else attnInverse props roomRolloff cd dryGain wetGain
  | DistModel.inverse => attnInverse props roomRolloff dist dryGain wetGain
  | DistModel.linearClamped =>
      let cd := clampf dist props.refDistance props.maxDistance
      if props.maxDistance < props.refDistance then ⟨cd, dryGain, wetGain⟩
      else attnLinear props roomRolloff cd dryGain wetGain
  | DistModel.linear => attnLinear props roomRolloff dist dryGain wetGain
  | DistModel.exponentClamped =>
      let cd := clampf dist props.refDistance props.maxDistance
      if props.maxDistance < props.refDistance then ⟨cd, dryGain, wetGain⟩
      else attnExponent powf props roomRolloff cd dryGain wetGain
  | DistModel.exponent =>
      attnExponent powf props roomRolloff dist dryGain wetGain
  | DistModel.disable => ⟨props.refDistance, dryGain, wetGain⟩

/-- C5 counterexample: under the `Inverse` model with `RefDistance = 1`,
`RolloffFactor = 2` and distance `0`, the interpolated distance
`lerp(1, 0, 2) = -1` is not positive, so the code leaves the dry gain `1`
unchanged, while the claimed unconditional factor
`RefDistance / lerp(RefDistance, d, RolloffFactor)` equals `-1`: the
claim that the dry gain is (always) multiplied by that factor is false. -/
theorem CalcAttnSourceParams_inverse_skips_nonpos_lerp :
    (calcDistanceAttn (fun _ _ => 0) DistModel.inverse ⟨1, 10, 2⟩ [] 0 1
      []).dryGain = 1 ∧
    (1 : ℚ) * ((1 : ℚ) / lerp 1 0 2) = -1 ∧ (1 : ℚ) ≠ -1 := by
  refine ⟨?_, by norm_num [lerp], by norm_num⟩
  norm_num [calcDistanceAttn, attnInverse, lerp]

/-- C5 amended: under `Inverse` or `InverseClamped` with
`RefDistance > 0`, the dry gain is multiplied by
`RefDistance / lerp(RefDistance, d, RolloffFactor)` provided that
interpolated distance is positive (otherwise the gain is unchanged),
where for `InverseClamped` `d` is the distance clamped to
`[RefDistance, MaxDistance]`; when `MaxDistance < RefDistance` the
clamped variant applies no attenuation; with `ref = 1`, `rolloff = 1`,
`d = 4` the dry attenuation factor is `1/4`.  Proved over the embedding
of `CalcAttnSourceParams` (Alc/alu.cpp). -/
theorem CalcAttnSourceParams_inverse_distance (powf : ℚ → ℚ → ℚ)
    (props : DistanceProps) (roomRolloff : List ℚ) (dist dryGain : ℚ)
    (wetGain : List ℚ) (href : 0 < props.refDistance) :
    ((0 < lerp props.refDistance dist props.rolloffFactor →
      (calcDistanceAttn powf DistModel.inverse props roomRolloff dist
        dryGain wetGain).dryGain =
        dryGain * (props.refDistance /
          lerp props.refDistance dist props.rolloffFactor)) ∧
     (¬ 0 < lerp props.refDistance dist props.rolloffFactor →
      (calcDistanceAttn powf DistModel.inverse props roomRolloff dist
        dryGain wetGain).dryGain = dryGain)) ∧
    ((¬ props.maxDistance < props.refDistance →
      0 < lerp props.refDistance
        (clampf dist props.refDistance props.maxDistance)
        props.rolloffFactor →
      (calcDistanceAttn powf DistModel.inverseClamped props roomRolloff
        dist dryGain wetGain).dryGain =
        dryGain * (props.refDistance /
          lerp props.refDistance
            (clampf dist props.refDistance props.maxDistance)
            props.rolloffFactor)) ∧
     (props.maxDistance < props.refDistance →
      (calcDistanceAttn powf DistModel.inverseClamped props roomRolloff
        dist dryGain wetGain).dryGain = dryGain)) ∧
    (∀ g : ℚ,
      (calcDistanceAttn powf DistModel.inverse ⟨1, props.maxDistance, 1⟩
        roomRolloff 4 g wetGain).dryGain = g * (1 / 4)) := by
  refine ⟨⟨fun hL => ?_, fun hL => ?_⟩, ⟨fun hmax hL => ?_, fun hmax => ?_⟩,
    fun g => ?_⟩
  · simp only [calcDistanceAttn, attnInverse, if_neg (not_not_intro href),
      if_pos hL]
  · simp only [calcDistanceAttn, attnInverse, if_neg (not_not_intro href),
      if_neg hL]
  · simp only [calcDistanceAttn, attnInverse, if_neg hmax,
      if_neg (not_not_intro href), if_pos hL]
  · simp only [calcDistanceAttn, if_pos hmax]
  · norm_num [calcDistanceAttn, attnInverse, lerp]

/-- Witness for the C5 theorem: `ref = 1`, `rolloff = 1`, `d = 4` under
the `Inverse` model attenuates a dry gain of `1` to `1/4`. -/
theorem CalcAttnSourceParams_inverse_distance_witness :
    (0 : ℚ) < (1 : ℚ) ∧
    (calcDistanceAttn (fun _ _ => 0) DistModel.inverse ⟨1, 10, 1⟩ [] 4 1
      []).dryGain = 1 * (1 / 4) := by
  refine ⟨by norm_num, ?_⟩
  have h := (CalcAttnSourceParams_inverse_distance (fun _ _ => 0)
    ⟨1, 10, 1⟩ [] 4 1 [] (by norm_num)).2.2 1
  simpa using h

/-! ## C6: directional sound cones (CalcAttnSourceParams, Alc/alu.cpp)

The angle is computed through `std::acos`; the embedding abstracts it as
a function parameter `acos` so that the statements hold for the exact
inverse cosine (instantiated with `Real.arccos` in the counterexample). -/

/-- The cone properties of a voice (`props->InnerAngle` etc.). -/
structure ConeProps (α : Type) where
  innerAngle : α
  outerAngle : α
  outerGain : α
  outerGainHF : α

/-- Modelled from the spec: the radians-to-degrees helper of the missing
alu header, `x · (180/π)`. -/
def rad2Deg {α : Type} [LinearOrderedField α] (pi x : α) : α := x * (180 / pi)

/-- Generic linear interpolation, the `lerp` of the missing alu header at
an arbitrary scalar type (used by the cone attenuation). -/
def lerpF {α : Type} [LinearOrderedField α] (a b t : α) : α := a + (b - a) * t

/-- Embeds the cone angle of `CalcAttnSourceParams` (Alc/alu.cpp):
`Rad2Deg(std::acos(aluDotproduct(Direction, SourceToListener)) * ConeScale
* 2.0f)`, where `SourceToListener` is the normalized source→listener
vector in listener space. -/
def calcConeAngle {α : Type} [LinearOrderedField α] (acos : α → α)
    (pi coneScale : α) (direction s2l : Vec3 α) : α :=
  rad2Deg pi (acos (aluDotproduct direction s2l) * coneScale * 2)

/-- Follows the claim text (spec §4.5 Cone) for comparison: the angle
taken from `acos(dot(D, -S))` with `S` the source→listener unit vector. -/
def specConeAngle {α : Type} [LinearOrderedField α] (acos : α → α)
    (pi coneScale : α) (direction s2l : Vec3 α) : α :=
  rad2Deg pi (acos (aluDotproduct direction (negV s2l)) * coneScale * 2)

/-- Embeds the cone attenuation (`ConeVolume`, `ConeHF`) computed from the
angle in `CalcAttnSourceParams` (Alc/alu.cpp): no attenuation when the
angle is not greater than `InnerAngle`, a linear interpolation toward the
outer gains strictly between the angles, and the outer gains at or beyond
`OuterAngle`. -/
def calcConeGains {α : Type} [LinearOrderedField α] (angle : α)
    (cp : ConeProps α) : α × α :=
  if ¬ (cp.innerAngle < angle) then (1, 1)
  else if angle < cp.outerAngle then
    (lerpF 1 cp.outerGain
      ((angle - cp.innerAngle) / (cp.outerAngle - cp.innerAngle)),
     lerpF 1 cp.outerGainHF
      ((angle - cp.innerAngle) / (cp.outerAngle - cp.innerAngle)))
  else (cp.outerGain, cp.outerGainHF)

/-- Embeds the guarded cone stage of `CalcAttnSourceParams` (Alc/alu.cpp):
the attenuation applies only for a directional source (nonzero direction)
with `InnerAngle < 360`. -/
def calcSourceCone {α : Type} [LinearOrderedField α] (acos : α → α)
    (pi coneScale : α) (directional : Bool) (direction s2l : Vec3 α)
    (cp : ConeProps α) : α × α :=
  if directional ∧ cp.innerAngle < 360 then
    calcConeGains (calcConeAngle acos pi coneScale direction s2l) cp
  else (1, 1)

/-- C6 counterexample: a directional source aimed straight at the
listener (`D = S = (0,0,-1)` in listener space, so `dot(D,S) = 1`), inner
angle 90°, outer angle 180°, outer gains 1/2, cone scale 1.  The code's
angle is `acos(1)·2 = 0°` (inside the inner cone: no attenuation), while
the claimed formula `acos(dot(D,-S))·2 = acos(-1)·2 = 360°` lands at or
beyond the outer angle (gain 1/2), so the claimed angle formula is false
against `CalcAttnSourceParams` (Alc/alu.cpp). -/
theorem CalcAttnSourceParams_cone_angle_sign :
    calcSourceCone Real.arccos Real.pi 1 true
      (⟨0, 0, -1⟩ : Vec3 ℝ) ⟨0, 0, -1⟩ ⟨90, 180, 1/2, 1/2⟩ = (1, 1) ∧
    calcConeGains
      (specConeAngle Real.arccos Real.pi 1 (⟨0, 0, -1⟩ : Vec3 ℝ)
        ⟨0, 0, -1⟩) ⟨90, 180, 1/2, 1/2⟩ = (1/2, 1/2) ∧
    ((1 : ℝ), (1 : ℝ)) ≠ ((1/2 : ℝ), (1/2 : ℝ)) := by
  have hdot : aluDotproduct (⟨0, 0, -1⟩ : Vec3 ℝ) ⟨0, 0, -1⟩ = 1 := by
    norm_num [aluDotproduct]
  have hdotn : aluDotproduct (⟨0, 0, -1⟩ : Vec3 ℝ)
      (negV ⟨0, 0, -1⟩) = -1 := by
    norm_num [aluDotproduct, negV]
  refine ⟨?_, ?_, ?_⟩
  · rw [calcSourceCone, if_pos (by norm_num), calcConeAngle, hdot,
      Real.arccos_one, calcConeGains]
    rw [if_pos]
    norm_num [rad2Deg]
  · rw [specConeAngle, hdotn, Real.arccos_neg_one]
    have hangle : rad2Deg Real.pi (Real.pi * 1 * 2) = (360 : ℝ) := by
      rw [rad2Deg]
      field_simp
      ring
    rw [hangle, calcConeGains, if_neg (by norm_num), if_neg (by norm_num)]
  · intro h
    have h1 := congrArg Prod.fst h
    norm_num at h1

/-- C6 amended: for a directional source with `InnerAngle < 360`, the
cone attenuation is computed from the angle
`acos(dot(D, S))·ConeScale·2` (in degrees) with `D` the source direction
unit vector and `S` the source→listener unit vector in the listener frame
(the claim's `dot(D, -S)` has the wrong sign); there is no attenuation
when the angle is not greater than `InnerAngle`, the gain and HF gain are
linearly interpolated toward `OuterGain`/`OuterGainHF` strictly between
the angles, and clamped to the outer values at or beyond `OuterAngle`.
Proved over the embedding of `CalcAttnSourceParams` (Alc/alu.cpp). -/
theorem CalcAttnSourceParams_cone_attenuation {α : Type}
    [LinearOrderedField α] (acos : α → α) (pi coneScale : α)
    (directional : Bool) (direction s2l : Vec3 α) (cp : ConeProps α)
    (hdir : directional = true) (hinner : cp.innerAngle < 360) :
    calcSourceCone acos pi coneScale directional direction s2l cp =
      calcConeGains (rad2Deg pi
        (acos (aluDotproduct direction s2l) * coneScale * 2)) cp ∧
    (¬ (cp.innerAngle < calcConeAngle acos pi coneScale direction s2l) →
      calcSourceCone acos pi coneScale directional direction s2l cp =
        (1, 1)) ∧
    (cp.innerAngle < calcConeAngle acos pi coneScale direction s2l →
      calcConeAngle acos pi coneScale direction s2l < cp.outerAngle →
      calcSourceCone acos pi coneScale directional direction s2l cp =
        (lerpF 1 cp.outerGain
          ((calcConeAngle acos pi coneScale direction s2l - cp.innerAngle) /
            (cp.outerAngle - cp.innerAngle)),
         lerpF 1 cp.outerGainHF
          ((calcConeAngle acos pi coneScale direction s2l - cp.innerAngle) /
            (cp.outerAngle - cp.innerAngle)))) ∧
    (cp.innerAngle < calcConeAngle acos pi coneScale direction s2l →
      ¬ (calcConeAngle acos pi coneScale direction s2l < cp.outerAngle) →
      calcSourceCone acos pi coneScale directional direction s2l cp =
        (cp.outerGain, cp.outerGainHF)) := by
  have hguard : calcSourceCone acos pi coneScale directional direction s2l
      cp = calcConeGains (calcConeAngle acos pi coneScale direction s2l)
        cp := by
    rw [calcSourceCone, if_pos ⟨by rw [hdir], hinner⟩]
  refine ⟨by rw [hguard]; rfl, fun h1 => ?_, fun h1 h2 => ?_,
    fun h1 h2 => ?_⟩
  · rw [hguard, calcConeGains, if_pos h1]
  · rw [hguard, calcConeGains, if_neg (not_not_intro h1), if_pos h2]
  · rw [hguard, calcConeGains, if_neg (not_not_intro h1), if_neg h2]

/-- Witness for the C6 theorem: a rational instance with a stand-in
inverse cosine evaluating to 1/2 radian, cone scale 1, inner angle 45°
and outer angle 90°. -/
theorem CalcAttnSourceParams_cone_attenuation_witness :
    (true = true ∧ (45 : ℚ) < 360) ∧
    calcSourceCone (fun _ => 1/2) 180 1 true
      (⟨0, 0, -1⟩ : Vec3 ℚ) ⟨0, 0, -1⟩ ⟨45, 90, 1/2, 3/4⟩ =
      calcConeGains (rad2Deg 180
        ((1/2 : ℚ) * 1 * 2)) ⟨45, 90, 1/2, 3/4⟩ := by
  refine ⟨⟨rfl, by norm_num⟩, ?_⟩
  have h := (CalcAttnSourceParams_cone_attenuation (fun _ => (1/2 : ℚ))
    180 1 true ⟨0, 0, -1⟩ ⟨0, 0, -1⟩ ⟨45, 90, 1/2, 3/4⟩ rfl
    (by norm_num)).1
  exact h

/-! ## C2: per-output-channel target gains
(CalcPanningAndFilters in Alc/alu.cpp, CalcAmbiCoeffs and
ComputePanningGainsBF in Alc/panning.cpp) -/

/-- Embeds `CalcAmbiCoeffs` (Alc/panning.cpp): the third-order ambisonic
coefficients of a direction `(y, z, x)`, with the exact decimal constants
of the source.  The spread adjustment multiplies the per-order
zonal-harmonic gains; its `std::cos(spread*0.5f)` and
`std::sqrt(1 + spread/τ)` values are abstracted as the parameters `ca`
and `scale`. -/
def CalcAmbiCoeffs (y z x spread ca scale : ℚ) : List ℚ :=
  let base : List ℚ :=
    [1,
     1.732050808 * y, 1.732050808 * z, 1.732050808 * x,
     3.872983346 * x * y, 3.872983346 * y * z,
     1.118033989 * (z * z * 3 - 1), 3.872983346 * x * z,
     1.936491673 * (x * x - y * y),
     2.091650066 * y * (x * x * 3 - y * y), 10.246950766 * z * x * y,
     1.620185175 * y * (z * z * 5 - 1), 1.322875656 * z * (z * z * 5 - 3),
     1.620185175 * x * (z * z * 5 - 1), 5.123475383 * z * (x * x - y * y),
     2.091650066 * x * (x * x - y * y * 3)]
  if 0 < spread then
    List.zipWith (· * ·)
      [scale,
       0.5 * (ca + 1) * scale, 0.5 * (ca + 1) * scale,
       0.5 * (ca + 1) * scale,
       0.5 * (ca + 1) * ca * scale, 0.5 * (ca + 1) * ca * scale,
       0.5 * (ca + 1) * ca * scale, 0.5 * (ca + 1) * ca * scale,
       0.5 * (ca + 1) * ca * scale,
       0.125 * (ca + 1) * (5 * ca * ca - 1) * scale,
       0.125 * (ca + 1) * (5 * ca * ca - 1) * scale,
       0.125 * (ca + 1) * (5 * ca * ca - 1) * scale,
       0.125 * (ca + 1) * (5 * ca * ca - 1) * scale,
       0.125 * (ca + 1) * (5 * ca * ca - 1) * scale,
       0.125 * (ca + 1) * (5 * ca * ca - 1) * scale,
       0.125 * (ca + 1) * (5 * ca * ca - 1) * scale]
      base
  else base

/-- One entry of a bus channel map, the `BFChannelConfig` of the missing
alMain header as used by `ComputePanningGainsBF` (Alc/panning.cpp): an
ambisonic scale and an ACN index. -/
structure BFChannelConfig where
  scale : ℚ
  index : ℕ

/-- Embeds `ComputePanningGainsBF` (Alc/panning.cpp): each mapped output
channel receives `chanmap.Scale * coeffs[chanmap.Index] * ingain`, and
the remaining gain slots up to `numOut = MAX_OUTPUT_CHANNELS` are
zero-filled. -/
def ComputePanningGainsBF (chanmap : List BFChannelConfig) (numOut : ℕ)
    (coeffs : List ℚ) (ingain : ℚ) : List ℚ :=
  chanmap.map (fun c => c.scale * coeffs.getD c.index 0 * ingain)
    ++ List.replicate (numOut - chanmap.length) 0

/-- Embeds the dry-gain clamp of `CalcAttnSourceParams` (Alc/alu.cpp):
`DryGain = clampf(DryGain, MinGain, MaxGain)` followed by
`DryGain = minf(DryGain*Direct.Gain*Listener.Gain, GAIN_MIX_MAX)`; the
`GAIN_MIX_MAX` constant of the missing header is a parameter. -/
def calcFinalDryGain (gainMixMax dryGain minGain maxGain directGain
    listenerGain : ℚ) : ℚ :=
  minf (clampf dryGain minGain maxGain * directGain * listenerGain)
    gainMixMax

/-- C2 counterexample: a mono voice straight above the listener
(direction `(y,z,x) = (0,1,0)`, no spread) on a third-order ambisonic dry
bus (channel scale 1, identity ACN map, panning.cpp `aluInitRenderer`)
with saturated input gain: the scalar gain entering panning is clamped to
`GAIN_MIX_MAX = 16`, but the ACN-2 channel target gain is
`1.732050808 · 16 = 27.712812928 > 16`, so the claimed bound
`|g| ≤ GAIN_MIX_MAX` on every per-output-channel target gain is false. -/
theorem CalcPanningAndFilters_gain_exceeds_GAIN_MIX_MAX :
    calcFinalDryGain 16 1000 0 1000 1 1 = 16 ∧
    (ComputePanningGainsBF [⟨1, 0⟩, ⟨1, 1⟩, ⟨1, 2⟩, ⟨1, 3⟩] 16
      (CalcAmbiCoeffs 0 1 0 0 0 0)
      (calcFinalDryGain 16 1000 0 1000 1 1)).getD 2 0 = 27.712812928 ∧
    ¬ (|(27.712812928 : ℚ)| ≤ 16) := by
  refine ⟨?_, ?_, by norm_num [abs_of_nonneg]⟩
  · norm_num [calcFinalDryGain, minf, maxf, clampf]
  · norm_num [ComputePanningGainsBF, CalcAmbiCoeffs, calcFinalDryGain,
      minf, maxf, clampf, List.getD]

/-- C2 amended: after parameter calculation the scalar gain entering the
panning helpers is clamped into `[0, GAIN_MIX_MAX]` (for nonnegative gain
properties), and every per-output-channel target gain produced by
`ComputePanningGainsBF` is bounded by `B · GAIN_MIX_MAX` where `B` bounds
the magnitude of `Scale · coeffs[Index]` over the bus channel map —
individual channel gains may exceed `GAIN_MIX_MAX` itself by the
ambisonic coefficient magnitude (up to `√3` at first order). Proved over
the embeddings of `CalcAttnSourceParams` (Alc/alu.cpp) and
`ComputePanningGainsBF` (Alc/panning.cpp). -/
theorem CalcPanningAndFilters_gain_bound (chanmap : List BFChannelConfig)
    (numOut : ℕ) (coeffs : List ℚ)
    (gainMixMax dryGain minGain maxGain directGain listenerGain B : ℚ)
    (hgmm : 0 ≤ gainMixMax) (hmn : 0 ≤ minGain) (hmx : 0 ≤ maxGain)
    (hdg : 0 ≤ directGain) (hlg : 0 ≤ listenerGain) (hB : 0 ≤ B)
    (hmap : ∀ c ∈ chanmap, |c.scale * coeffs.getD c.index 0| ≤ B) :
    (0 ≤ calcFinalDryGain gainMixMax dryGain minGain maxGain directGain
        listenerGain ∧
     calcFinalDryGain gainMixMax dryGain minGain maxGain directGain
        listenerGain ≤ gainMixMax) ∧
    ∀ g ∈ ComputePanningGainsBF chanmap numOut coeffs
        (calcFinalDryGain gainMixMax dryGain minGain maxGain directGain
          listenerGain), |g| ≤ B * gainMixMax := by
  have hmaxf : 0 ≤ maxf minGain dryGain := by
    unfold maxf
    split
    · linarith
    · exact hmn
  have hclamp : 0 ≤ clampf dryGain minGain maxGain := by
    unfold clampf minf
    split
    · exact hmaxf
    · exact hmx
  have hbase : 0 ≤ clampf dryGain minGain maxGain * directGain *
      listenerGain := mul_nonneg (mul_nonneg hclamp hdg) hlg
  have hin0 : 0 ≤ calcFinalDryGain gainMixMax dryGain minGain maxGain
      directGain listenerGain := by
    unfold calcFinalDryGain minf
    split
    · exact hgmm
    · exact hbase
  have hin1 : calcFinalDryGain gainMixMax dryGain minGain maxGain
      directGain listenerGain ≤ gainMixMax := by
    unfold calcFinalDryGain minf
    split
    · exact le_refl _
    · linarith [not_lt.mp (by assumption :
        ¬ clampf dryGain minGain maxGain * directGain * listenerGain >
          gainMixMax)]
  refine ⟨⟨hin0, hin1⟩, fun g hg => ?_⟩
  rcases List.mem_append.mp hg with hmem | hmem
  · rcases List.mem_map.mp hmem with ⟨c, hc, rfl⟩
    rw [abs_mul]
    have h1 : |c.scale * coeffs.getD c.index 0| ≤ B := hmap c hc
    have h2 : |calcFinalDryGain gainMixMax dryGain minGain maxGain
        directGain listenerGain| ≤ gainMixMax := by
      rw [abs_of_nonneg hin0]; exact hin1
    exact mul_le_mul h1 h2 (abs_nonneg _) hB
  · rw [List.eq_of_mem_replicate hmem]
    simpa using mul_nonneg hB hgmm

/-- Witness for the C2 theorem: a single W-mapped channel with unit
coefficient, bound 1 and `GAIN_MIX_MAX = 16`. -/
theorem CalcPanningAndFilters_gain_bound_witness :
    (0 ≤ calcFinalDryGain 16 2 0 1 1 1 ∧
     calcFinalDryGain 16 2 0 1 1 1 ≤ 16) ∧
    ∀ g ∈ ComputePanningGainsBF [⟨1, 0⟩] 2 [1]
        (calcFinalDryGain 16 2 0 1 1 1), |g| ≤ 1 * 16 :=
  CalcPanningAndFilters_gain_bound [⟨1, 0⟩] 2 [1] 16 2 0 1 1 1 1
    (by norm_num) (by norm_num) (by norm_num) (by norm_num) (by norm_num)
    (by norm_num)
    (by intro c hc; simp at hc; subst hc; norm_num [List.getD])

/-! ## C8: float to device sample conversion (SampleConv, Alc/alu.cpp) -/

/-- Embeds `SampleConv<ALint>` (Alc/alu.cpp):
`fastf2i(clampf(val*16777216.0f, -16777216.0f, 16777215.0f)) << 7`. -/
def SampleConvInt (v : ℚ) : ℤ :=
  fastf2i (clampf (v * 16777216) (-16777216) 16777215) * 128

/-- Embeds `SampleConv<ALshort>` (Alc/alu.cpp). -/
def SampleConvShort (v : ℚ) : ℤ :=
  fastf2i (clampf (v * 32768) (-32768) 32767)

/-- Embeds `SampleConv<ALbyte>` (Alc/alu.cpp). -/
def SampleConvByte (v : ℚ) : ℤ :=
  fastf2i (clampf (v * 128) (-128) 127)

/-- Embeds `SampleConv<ALuint>` (Alc/alu.cpp):
`SampleConv<ALint>(val) + 2147483648u`. -/
def SampleConvUInt (v : ℚ) : ℤ := SampleConvInt v + 2147483648

/-- Embeds `SampleConv<ALushort>` (Alc/alu.cpp). -/
def SampleConvUShort (v : ℚ) : ℤ := SampleConvShort v + 32768

/-- Embeds `SampleConv<ALubyte>` (Alc/alu.cpp). -/
def SampleConvUByte (v : ℚ) : ℤ := SampleConvByte v + 128

/-- The rounding in `fastf2i` of an integer value is the identity. -/
theorem fastf2i_intCast (n : ℤ) : fastf2i (n : ℚ) = n := by
  unfold fastf2i
  rw [Int.floor_intCast]
  norm_num

/-- `fastf2i` never rounds above an integer upper bound of its input. -/
theorem fastf2i_le (q : ℚ) (mx : ℤ) (h : q ≤ (mx : ℚ)) : fastf2i q ≤ mx := by
  have hfl : (⌊q⌋ : ℚ) ≤ (mx : ℚ) := le_trans (Int.floor_le q) h
  have hfl2 : ⌊q⌋ ≤ mx := by exact_mod_cast hfl
  unfold fastf2i
  split_ifs with h1 h2 h3
  · exact hfl2
  · have hlt : (⌊q⌋ : ℚ) < (mx : ℚ) := by linarith
    have : ⌊q⌋ < mx := by exact_mod_cast hlt
    omega
  · exact hfl2
  · have hge : (1 : ℚ)/2 ≤ q - ⌊q⌋ := le_of_not_lt h1
    have hlt : (⌊q⌋ : ℚ) < (mx : ℚ) := by linarith
    have : ⌊q⌋ < mx := by exact_mod_cast hlt
    omega

/-- `fastf2i` never rounds below an integer lower bound of its input. -/
theorem fastf2i_ge (q : ℚ) (mn : ℤ) (h : (mn : ℚ) ≤ q) : mn ≤ fastf2i q := by
  have hfl : mn ≤ ⌊q⌋ := Int.le_floor.mpr h
  unfold fastf2i
  split_ifs <;> omega

/-- `clampf` lands in the clamp interval whenever it is nonempty. -/
theorem clampf_sandwich (v mn mx : ℚ) (h : mn ≤ mx) :
    mn ≤ clampf v mn mx ∧ clampf v mn mx ≤ mx := by
  unfold clampf minf maxf
  split_ifs <;> constructor <;> linarith

/-- C8: the float-to-device conversions of `SampleConv` (Alc/alu.cpp):
each unsigned variant is exactly the signed conversion plus the type's
midpoint bias; each conversion lands in its type's range (the input is
clamped to the `[-1, +1]` range scaled to the type's magnitude — for the
32-bit type at 24-bit precision scaled by `2⁷`); inputs at or beyond ±1
saturate; and values exactly halfway between two representable outputs
round half to even. -/
theorem SampleConv_integer_conversions (v : ℚ) (n : ℤ) :
    (SampleConvUByte v = SampleConvByte v + 128 ∧
     SampleConvUShort v = SampleConvShort v + 32768 ∧
     SampleConvUInt v = SampleConvInt v + 2147483648) ∧
    (-128 ≤ SampleConvByte v ∧ SampleConvByte v ≤ 127 ∧
     -32768 ≤ SampleConvShort v ∧ SampleConvShort v ≤ 32767 ∧
     -2147483648 ≤ SampleConvInt v ∧ SampleConvInt v ≤ 2147483520) ∧
    (0 ≤ SampleConvUByte v ∧ SampleConvUByte v ≤ 255 ∧
     0 ≤ SampleConvUShort v ∧ SampleConvUShort v ≤ 65535 ∧
     0 ≤ SampleConvUInt v ∧ SampleConvUInt v ≤ 4294967168) ∧
    ((1 ≤ v → SampleConvShort v = 32767) ∧
     (v ≤ -1 → SampleConvShort v = -32768)) ∧
    (-32768 ≤ n → n < 32767 →
      SampleConvShort ((n + 1/2) / 32768) =
        if Even n then n else n + 1) := by
  have hshort := clampf_sandwich (v * 32768) (-32768) 32767 (by norm_num)
  have hbyte := clampf_sandwich (v * 128) (-128) 127 (by norm_num)
  have hint := clampf_sandwich (v * 16777216) (-16777216) 16777215
    (by norm_num)
  have hshort1 : -32768 ≤ SampleConvShort v :=
    fastf2i_ge _ (-32768) (by exact_mod_cast hshort.1)
  have hshort2 : SampleConvShort v ≤ 32767 :=
    fastf2i_le _ 32767 (by exact_mod_cast hshort.2)
  have hbyte1 : -128 ≤ SampleConvByte v :=
    fastf2i_ge _ (-128) (by exact_mod_cast hbyte.1)
  have hbyte2 : SampleConvByte v ≤ 127 :=
    fastf2i_le _ 127 (by exact_mod_cast hbyte.2)
  have hint1 : -16777216 ≤ fastf2i (clampf (v * 16777216) (-16777216)
      16777215) := fastf2i_ge _ (-16777216) (by exact_mod_cast hint.1)
  have hint2 : fastf2i (clampf (v * 16777216) (-16777216) 16777215) ≤
      16777215 := fastf2i_le _ 16777215 (by exact_mod_cast hint.2)
  refine ⟨⟨rfl, rfl, rfl⟩,
    ⟨hbyte1, hbyte2, hshort1, hshort2, ?_, ?_⟩,
    ⟨?_, ?_, ?_, ?_, ?_, ?_⟩, ⟨fun hv => ?_, fun hv => ?_⟩,
    fun h1 h2 => ?_⟩
  · unfold SampleConvInt; nlinarith [hint1]
  · unfold SampleConvInt; nlinarith [hint2]
  · unfold SampleConvUByte; omega
  · unfold SampleConvUByte; omega
  · unfold SampleConvUShort; omega
  · unfold SampleConvUShort; omega
  · unfold SampleConvUInt SampleConvInt; nlinarith [hint1]
  · unfold SampleConvUInt SampleConvInt; nlinarith [hint2]
  · have hcl : clampf (v * 32768) (-32768) 32767 = 32767 := by
      unfold clampf minf maxf
      split_ifs <;> linarith
    unfold SampleConvShort
    rw [hcl]
    exact_mod_cast fastf2i_intCast 32767
  · have hcl : clampf (v * 32768) (-32768) 32767 = -32768 := by
      unfold clampf minf maxf
      split_ifs <;> linarith
    unfold SampleConvShort
    rw [hcl]
    exact_mod_cast fastf2i_intCast (-32768)
  · have hmul : ((n : ℚ) + 1/2) / 32768 * 32768 = (n : ℚ) + 1/2 := by
      field_simp
      ring
    have hcl : clampf ((n : ℚ) + 1/2) (-32768) 32767 = (n : ℚ) + 1/2 := by
      have hn1 : (-32768 : ℚ) ≤ (n : ℚ) := by exact_mod_cast h1
      have hn2 : (n : ℚ) ≤ 32766 := by
        have : n ≤ 32766 := by omega
        exact_mod_cast this
      unfold clampf minf maxf
      split_ifs <;> linarith
    have hfl : ⌊(n : ℚ) + 1/2⌋ = n := by
      rw [add_comm, Int.floor_add_int]
      norm_num
    unfold SampleConvShort
    rw [show ((n : ℚ) + 1/2) / 32768 * 32768 = (n : ℚ) + 1/2 from hmul,
      hcl]
    unfold fastf2i
    rw [hfl]
    norm_num

/-- Witness for the C8 theorem: saturation at `v = 1` and the half-even
rounding of `2.5/32768` to `2`. -/
theorem SampleConv_integer_conversions_witness :
    SampleConvShort 1 = 32767 ∧
    SampleConvShort ((2 + 1/2) / 32768) = 2 := by
  have h := SampleConv_integer_conversions 1 2
  refine ⟨h.2.2.2.1.1 (by norm_num), ?_⟩
  have h2 := h.2.2.2.2 (by norm_num) (by norm_num)
  rw [if_pos (by decide)] at h2
  exact_mod_cast h2

/-! ## C10: B-Format decoding (BFormatDec::process, Alc/bformatdec.cpp) -/

/-- Modelled from the spec: `MixRowSamples` of the mixer files missing
from src/ (§4.7: the decoder "mixes the input bus through one matrix into
each output"): `OutBuffer[i] += Gains[c] * data[c][i]` over the input
channels. -/
def MixRowSamples (gains : List ℚ) (ins : List (List ℚ))
    (out : List ℚ) : List ℚ :=
  (List.zip gains ins).foldl
    (fun acc gi => List.zipWith (fun a b => a + gi.1 * b) acc gi.2) out

/-- The per-output-channel decoded mix of `BFormatDec::process`
(Alc/bformatdec.cpp): `mChannelMix` is zero-filled and then accumulates
one matrix mix (single band) or the high- and low-band mixes (dual band,
with the band splitter on each input channel abstracted as `xover`). -/
def bformatChannelMix (dualBand : Bool)
    (xover : ℕ → List ℚ → List ℚ × List ℚ)
    (matrixHF matrixLF matrixSingle : ℕ → List ℚ) (numChannels : ℕ)
    (inSamples : List (List ℚ)) (n : ℕ) (chan : ℕ) : List ℚ :=
  let ins := inSamples.take numChannels
  if dualBand then
    let hf := (List.range numChannels).map
      (fun i => (xover i (ins.getD i [])).1)
    let lf := (List.range numChannels).map
      (fun i => (xover i (ins.getD i [])).2)
    MixRowSamples (matrixLF chan) lf
      (MixRowSamples (matrixHF chan) hf (List.replicate n 0))
  else
    MixRowSamples (matrixSingle chan) ins (List.replicate n 0)

/-- The output-channel loop of `BFormatDec::process` (Alc/bformatdec.cpp):
channels whose bit is clear in `mEnabled` are skipped (`continue`), and
each enabled channel accumulates its decoded mix
(`std::transform(..., std::plus<float>())`). -/
def processChannels (decode : ℕ → List ℚ) (enabled : ℕ) :
    ℕ → List (List ℚ) → List (List ℚ)
  | _, [] => []
  | chan, row :: rest =>
      (if Nat.testBit enabled chan then
        List.zipWith (· + ·) row (decode chan)
      else row) :: processChannels decode enabled (chan + 1) rest

/-- Embeds `BFormatDec::process` (Alc/bformatdec.cpp). -/
def BFormatDec_process (dualBand : Bool)
    (xover : ℕ → List ℚ → List ℚ × List ℚ)
    (matrixHF matrixLF matrixSingle : ℕ → List ℚ) (enabled : ℕ)
    (numChannels : ℕ) (inSamples : List (List ℚ)) (n : ℕ)
    (outBuffer : List (List ℚ)) : List (List ℚ) :=
  processChannels
    (bformatChannelMix dualBand xover matrixHF matrixLF matrixSingle
      numChannels inSamples n) enabled 0 outBuffer

/-- Indexed access through the output-channel loop of
`BFormatDec::process`. -/
theorem processChannels_get (decode : ℕ → List ℚ) (enabled : ℕ)
    (l : List (List ℚ)) (start i : ℕ) :
    (processChannels decode enabled start l).get? i =
      (l.get? i).map (fun row =>
        if Nat.testBit enabled (start + i) then
          List.zipWith (· + ·) row (decode (start + i))
        else row) := by
  induction l generalizing start i with
  | nil => simp [processChannels]
  | cons row rest ih =>
      cases i with
      | zero => simp [processChannels]
      | succ j =>
          simp only [processChannels, List.get?]
          rw [ih (start + 1) j]
          have : start + 1 + j = start + (j + 1) := by omega
          rw [this]

/-- C10: in every call of `BFormatDec::process` (Alc/bformatdec.cpp),
output channels whose bit is not set in `mEnabled` are left completely
unchanged, every enabled output channel receives the decoded matrix mix
added onto its existing samples rather than overwriting them, and the
output channel count is preserved. -/
theorem BFormatDec_process_frame (dualBand : Bool)
    (xover : ℕ → List ℚ → List ℚ × List ℚ)
    (matrixHF matrixLF matrixSingle : ℕ → List ℚ) (enabled : ℕ)
    (numChannels : ℕ) (inSamples : List (List ℚ)) (n : ℕ)
    (outBuffer : List (List ℚ)) (chan : ℕ) :
    (¬ Nat.testBit enabled chan →
      (BFormatDec_process dualBand xover matrixHF matrixLF matrixSingle
        enabled numChannels inSamples n outBuffer).get? chan =
        outBuffer.get? chan) ∧
    (Nat.testBit enabled chan →
      (BFormatDec_process dualBand xover matrixHF matrixLF matrixSingle
        enabled numChannels inSamples n outBuffer).get? chan =
        (outBuffer.get? chan).map (fun row => List.zipWith (· + ·) row
          (bformatChannelMix dualBand xover matrixHF matrixLF matrixSingle
            numChannels inSamples n chan))) ∧
    (BFormatDec_process dualBand xover matrixHF matrixLF matrixSingle
      enabled numChannels inSamples n outBuffer).length =
      outBuffer.length := by
  refine ⟨fun hbit => ?_, fun hbit => ?_, ?_⟩
  · rw [BFormatDec_process, processChannels_get]
    simp only [Nat.zero_add, if_neg hbit]
    cases outBuffer.get? chan <;> rfl
  · rw [BFormatDec_process, processChannels_get]
    simp only [Nat.zero_add, if_pos hbit]
  · rw [BFormatDec_process]
    generalize 0 = start
    induction outBuffer generalizing start with
    | nil => rfl
    | cons row rest ih => simpa [processChannels] using ih (start + 1)

/-- Witness for the C10 theorem: two output channels with only bit 0
enabled; channel 0 accumulates the single-band mix of one input channel,
channel 1 is untouched. -/
theorem BFormatDec_process_frame_witness :
    (BFormatDec_process false (fun _ l => (l, l)) (fun _ => [])
      (fun _ => []) (fun _ => [1]) 1 1 [[10, 20]] 2
      [[1, 2], [3, 4]]).get? 0 =
      some (List.zipWith (· + ·) [1, 2]
        (bformatChannelMix false (fun _ l => (l, l)) (fun _ => [])
          (fun _ => []) (fun _ => [1]) 1 [[10, 20]] 2 0)) ∧
    (BFormatDec_process false (fun _ l => (l, l)) (fun _ => [])
      (fun _ => []) (fun _ => [1]) 1 1 [[10, 20]] 2
      [[1, 2], [3, 4]]).get? 1 = some [3, 4] := by
  constructor
  · have h := (BFormatDec_process_frame false (fun _ l => (l, l))
      (fun _ => []) (fun _ => []) (fun _ => [1]) 1 1 [[10, 20]] 2
      [[1, 2], [3, 4]] 0).2.1 (by decide)
    rw [h]
    rfl
  · have h := (BFormatDec_process_frame false (fun _ l => (l, l))
      (fun _ => []) (fun _ => []) (fun _ => [1]) 1 1 [[10, 20]] 2
      [[1, 2], [3, 4]] 1).1 (by decide)
    rw [h]
    rfl

/-! ## C7: effect-slot ordering before processing
(ProcessContext, Alc/alu.cpp) -/

/-- Embeds the `in_chain` walk of `ProcessContext` (Alc/alu.cpp):
successive `Params.Target` links of `s1` are compared against `s2`.  The
C++ `while` loop is unbounded; the embedding bounds it by a fuel
argument, sufficient for the acyclic chains the mixer relies on. -/
def in_chain {α : Type} [DecidableEq α] (target : α → Option α) :
    ℕ → α → α → Bool
  | 0, _, _ => false
  | fuel + 1, s1, s2 =>
      match target s1 with
      | none => false
      | some t => t == s2 || in_chain target fuel t s2

/-- Embeds one insertion of the slot sort in `ProcessContext`
(Alc/alu.cpp): the next slot is placed directly before the first
already-sorted slot it targets (directly or indirectly), or appended. -/
def insertSlot {α : Type} (R : α → α → Bool) (s : α) : List α → List α
  | [] => [s]
  | c :: rest => if R s c then s :: c :: rest else c :: insertSlot R s rest

/-- Embeds the slot sorting loop of `ProcessContext` (Alc/alu.cpp):
starting from the first active slot, each subsequent slot is inserted
into the sorted scratch list; the effect states are then processed in
this order. -/
def sortSlots {α : Type} (R : α → α → Bool) : List α → List α
  | [] => []
  | s0 :: rest => rest.foldl (fun acc s => insertSlot R s acc) [s0]

/-- Inserting preserves being a permutation (one more element). -/
theorem insertSlot_perm {α : Type} (R : α → α → Bool) (s : α)
    (l : List α) : List.Perm (insertSlot R s l) (s :: l) := by
  induction l with
  | nil => exact List.Perm.refl _
  | cons c rest ih =>
      rw [insertSlot]
      split
      · exact List.Perm.refl _
      · exact (List.Perm.cons c ih).trans (List.Perm.swap s c rest)

/-- The sorted scratch list is a permutation of the input slots. -/
theorem sortSlots_perm {α : Type} (R : α → α → Bool) (l : List α) :
    List.Perm (sortSlots R l) l := by
  have hfold : ∀ (rest acc : List α),
      List.Perm (rest.foldl (fun a s => insertSlot R s a) acc)
        (acc ++ rest) := by
    intro rest
    induction rest with
    | nil => intro acc; simp
    | cons s rest ih =>
        intro acc
        have h1 : List.Perm
            ((s :: rest).foldl (fun a s => insertSlot R s a) acc)
            (insertSlot R s acc ++ rest) := ih (insertSlot R s acc)
        have h2 : List.Perm (insertSlot R s acc ++ rest)
            ((s :: acc) ++ rest) :=
          (insertSlot_perm R s acc).append_right rest
        have h3 : List.Perm ((s :: acc) ++ rest) (acc ++ s :: rest) := by
          rw [List.cons_append]
          exact List.perm_middle.symm
        exact (h1.trans h2).trans h3
  cases l with
  | nil => exact List.Perm.refl _
  | cons s0 rest => simpa using hfold rest [s0]

/-- Inserting preserves the sort invariant: no earlier slot is targeted
by a later one (a slot always precedes the slots it transitively
targets), given that the chain relation is transitive and has no
self-loops. -/
theorem insertSlot_sorted {α : Type} (R : α → α → Bool)
    (htrans : ∀ a b c, R a b = true → R b c = true → R a c = true)
    (hirr : ∀ a, R a a = false) (s : α) (l : List α)
    (hl : List.Pairwise (fun x y => R y x = false) l) :
    List.Pairwise (fun x y => R y x = false) (insertSlot R s l) := by
  induction l with
  | nil => exact List.pairwise_singleton _ s
  | cons c rest ih =>
      rw [List.pairwise_cons] at hl
      rw [insertSlot]
      split
      · rename_i hsc
        refine List.pairwise_cons.mpr ⟨?_, List.pairwise_cons.mpr hl⟩
        intro y hy
        rcases List.mem_cons.mp hy with rfl | hy
        · by_contra hcs
          have hcs' : R y s = true := by
            cases h : R y s
            · exact absurd h hcs
            · rfl
          have := htrans y s y hcs' hsc
          rw [hirr y] at this
          exact Bool.false_ne_true this
        · by_contra hys
          have hys' : R y s = true := by
            cases h : R y s
            · exact absurd h hys
            · rfl
          have := htrans y s c hys' hsc
          rw [hl.1 y hy] at this
          exact Bool.false_ne_true this
      · rename_i hsc
        refine List.pairwise_cons.mpr ⟨?_, ih hl.2⟩
        intro y hy
        have hy' : y ∈ s :: rest :=
          (insertSlot_perm R s rest).mem_iff.mp hy
        rcases List.mem_cons.mp hy' with rfl | hy'
        · exact Bool.of_not_eq_true hsc
        · exact hl.1 y hy'

/-- C7 counterexample: two slots `0` and `1` where slot `1` targets slot
`0`.  The sort of `ProcessContext` (Alc/alu.cpp) produces the order
`[1, 0]` — the targeting slot `1` comes first, so its output is in slot
`0`'s wet buffer before slot `0` is processed — while the claim ("each
slot precedes any slot that targets it") requires slot `0` to precede
slot `1`; the claim has the order backwards. -/
theorem ProcessContext_sort_targeter_first :
    sortSlots
      (in_chain (fun i : Fin 2 => if i = 1 then some 0 else none) 2)
      [0, 1] = [1, 0] ∧
    in_chain (fun i : Fin 2 => if i = 1 then some 0 else none) 2 1 0 =
      true ∧
    ([1, 0] : List (Fin 2)).indexOf 1 < ([1, 0] : List (Fin 2)).indexOf 0
    := by
  refine ⟨?_, by decide, by decide⟩
  rfl

/-- C7 amended: before per-quantum effect processing, the active
auxiliary slots are reordered so that each slot precedes any slot that it
targets transitively through the Target chain (the targeting slot comes
first, its target after it), and the sorted list is a permutation of the
active slots — each slot's `EffectState` is processed exactly once, in
that order.  Proved for the insertion sort of `ProcessContext`
(Alc/alu.cpp) with a transitive, irreflexive chain relation (the `Target`
chains form a DAG). -/
theorem ProcessContext_sorted_slots {α : Type} [DecidableEq α]
    (R : α → α → Bool) (l : List α)
    (htrans : ∀ a b c, R a b = true → R b c = true → R a c = true)
    (hirr : ∀ a, R a a = false) :
    List.Perm (sortSlots R l) l ∧
    List.Pairwise (fun x y => R y x = false) (sortSlots R l) ∧
    ∀ a : α, (sortSlots R l).count a = l.count a := by
  refine ⟨sortSlots_perm R l, ?_, fun a => (sortSlots_perm R l).count_eq a⟩
  cases l with
  | nil => exact List.Pairwise.nil
  | cons s0 rest =>
      rw [sortSlots]
      have hfold : ∀ (todo acc : List α),
          List.Pairwise (fun x y => R y x = false) acc →
          List.Pairwise (fun x y => R y x = false)
            (todo.foldl (fun a s => insertSlot R s a) acc) := by
        intro todo
        induction todo with
        | nil => intro acc h; exact h
        | cons s todo ih =>
            intro acc h
            exact ih _ (insertSlot_sorted R htrans hirr s acc h)
      exact hfold rest [s0] (List.pairwise_singleton _ s0)

/-- Witness for the C7 theorem: three slots on `Fin 3` with
`2 → 1 → 0` target links, inserted from the order `[0, 1, 2]`. -/
theorem ProcessContext_sorted_slots_witness :
    List.Perm
      (sortSlots (in_chain
        (fun i : Fin 3 => if i = 2 then some 1 else
          if i = 1 then some 0 else none) 3) [0, 1, 2]) [0, 1, 2] ∧
    List.Pairwise (fun x y => in_chain
        (fun i : Fin 3 => if i = 2 then some 1 else
          if i = 1 then some 0 else none) 3 y x = false)
      (sortSlots (in_chain
        (fun i : Fin 3 => if i = 2 then some 1 else
          if i = 1 then some 0 else none) 3) [0, 1, 2]) ∧
    ∀ a : Fin 3, (sortSlots (in_chain
        (fun i : Fin 3 => if i = 2 then some 1 else
          if i = 1 then some 0 else none) 3) [0, 1, 2]).count a =
      ([0, 1, 2] : List (Fin 3)).count a :=
  ProcessContext_sorted_slots
    (in_chain (fun i : Fin 3 => if i = 2 then some 1 else
      if i = 1 then some 0 else none) 3) [0, 1, 2]
    (by decide) (by decide)

/-! ## C9: the 2-channel UHJ encoder (Uhj2Encoder::encode, Alc/uhjfilter.cpp)

The encoder processes the input in blocks of at most
`MAX_UPDATE_SAMPLES = 128` samples, threading the all-pass filter states
and the one-sample delays across blocks and calls. -/

/-- Embeds `Filter1CoeffSqr` (Alc/uhjfilter.cpp). -/
def Filter1CoeffSqr : List ℚ :=
  [0.479400865589, 0.876218493539, 0.976597589508, 0.997499255936]

/-- Embeds `Filter2CoeffSqr` (Alc/uhjfilter.cpp). -/
def Filter2CoeffSqr : List ℚ :=
  [0.161758498368, 0.733028932341, 0.945349700329, 0.990599156685]

/-- Embeds `allpass_process` (Alc/uhjfilter.cpp): the first-order
all-pass section `output = input*aa + z1; z1 = z2; z2 = output*aa -
input` over a sample list, returning the outputs and the final state. -/
def allpass_process (aa : ℚ) (z : ℚ × ℚ) :
    List ℚ → List ℚ × (ℚ × ℚ)
  | [] => ([], z)
  | input :: rest =>
      let output := input * aa + z.1
      let res := allpass_process aa (z.2, output * aa - input) rest
      (output :: res.1, res.2)

/-- Embeds the four consecutive `allpass_process` calls of
`Uhj2Encoder::encode` (Alc/uhjfilter.cpp) as a chain over a coefficient
list and a parallel list of filter states. -/
def chain_process : List ℚ → List (ℚ × ℚ) → List ℚ →
    List ℚ × List (ℚ × ℚ)
  | [], _, xs => (xs, [])
  | _ :: _, [], xs => (xs, [])
  | aa :: cs, z :: zs, xs =>
      let r1 := allpass_process aa z xs
      let r2 := chain_process cs zs r1.1
      (r2.1, r1.2 :: r2.2)

/-- Embeds the one-sample delay of the Filter1 chain outputs in
`Uhj2Encoder::encode` (Alc/uhjfilter.cpp): the first output sample is the
last processed sample of the previous run (`mLastY` / `mLastWX`), and
the last processed sample of this run is carried forward. -/
def delayOne (last : ℚ) (xs : List ℚ) : List ℚ × ℚ :=
  (last :: xs.dropLast, xs.getLastD last)

/-- The state of `Uhj2Encoder` (Alc/uhjfilter.h): three 4-stage all-pass
filter banks and the two one-sample delay registers. -/
structure Uhj2Encoder where
  mFilter1_Y : List (ℚ × ℚ)
  mFilter2_WX : List (ℚ × ℚ)
  mFilter1_WX : List (ℚ × ℚ)
  mLastY : ℚ
  mLastWX : ℚ

/-- The Y contribution to `D` in `Uhj2Encoder::encode`
(Alc/uhjfilter.cpp): `0.6554516·Y` through the Filter1 chain
(`mFilter1_Y`), with the one-sample delay carried in `mLastY`.  Returns
the delayed outputs, the new filter states and the new delay register. -/
def pipeY (zs : List (ℚ × ℚ)) (last : ℚ) (y : List ℚ) :
    List ℚ × List (ℚ × ℚ) × ℚ :=
  let r := chain_process Filter1CoeffSqr zs (y.map (fun v => 0.6554516 * v))
  let d := delayOne last r.1
  (d.1, r.2, d.2)

/-- The W/X contribution to `D` in `Uhj2Encoder::encode`
(Alc/uhjfilter.cpp): `-0.3420201·W + 0.5098604·X` through the Filter2
chain (`mFilter2_WX`), no delay. -/
def pipeWX2 (zs : List (ℚ × ℚ)) (w x : List ℚ) :
    List ℚ × List (ℚ × ℚ) :=
  chain_process Filter2CoeffSqr zs
    (List.zipWith (fun wv xv => -0.3420201 * wv + 0.5098604 * xv) w x)

/-- The `S` signal of `Uhj2Encoder::encode` (Alc/uhjfilter.cpp):
`0.9396926·W + 0.1855740·X` through the Filter1 chain (`mFilter1_WX`),
with the one-sample delay carried in `mLastWX`. -/
def pipeS (zs : List (ℚ × ℚ)) (last : ℚ) (w x : List ℚ) :
    List ℚ × List (ℚ × ℚ) × ℚ :=
  let r := chain_process Filter1CoeffSqr zs
    (List.zipWith (fun wv xv => 0.9396926 * wv + 0.1855740 * xv) w x)
  let d := delayOne last r.1
  (d.1, r.2, d.2)

/-- Embeds one block (`todo ≤ MAX_UPDATE_SAMPLES` samples) of
`Uhj2Encoder::encode` (Alc/uhjfilter.cpp): `D` is the delayed Filter1
chain of `0.6554516·Y` plus the Filter2 chain of
`-0.3420201·W + 0.5098604·X`; `S` is the delayed Filter1 chain of
`0.9396926·W + 0.1855740·X`; `(S+D)/2` and `(S-D)/2` are accumulated
onto the left and right output buffers. -/
def encodeBlock (e : Uhj2Encoder) (w x y left right : List ℚ) :
    List ℚ × List ℚ × Uhj2Encoder :=
  let pY := pipeY e.mFilter1_Y e.mLastY y
  let p2 := pipeWX2 e.mFilter2_WX w x
  let dd := List.zipWith (· + ·) pY.1 p2.1
  let pS := pipeS e.mFilter1_WX e.mLastWX w x
  (List.zipWith (· + ·) left
    (List.zipWith (fun a b => (a + b) * 0.5) pS.1 dd),
   List.zipWith (· + ·) right
    (List.zipWith (fun a b => (a - b) * 0.5) pS.1 dd),
   { mFilter1_Y := pY.2.1, mFilter2_WX := p2.2, mFilter1_WX := pS.2.1,
     mLastY := pY.2.2, mLastWX := pS.2.2 })

/-- Embeds `Uhj2Encoder::encode` (Alc/uhjfilter.cpp): the outer loop over
blocks of at most `MAX_UPDATE_SAMPLES = 128` samples, threading the
filter states and delay registers from block to block. -/
def Uhj2Encoder_encode (e : Uhj2Encoder) (w x y left right : List ℚ) :
    List ℚ × List ℚ × Uhj2Encoder :=
  if w.length ≤ 128 then encodeBlock e w x y left right
  else
    let b := encodeBlock e (w.take 128) (x.take 128) (y.take 128)
      (left.take 128) (right.take 128)
    let rest := Uhj2Encoder_encode b.2.2 (w.drop 128) (x.drop 128)
      (y.drop 128) (left.drop 128) (right.drop 128)
    (b.1 ++ rest.1, b.2.1 ++ rest.2.1, rest.2.2)
termination_by w.length
decreasing_by
  simp only [List.length_drop]
  omega

/-- The all-pass section preserves the sample count. -/
theorem allpass_length (aa : ℚ) (z : ℚ × ℚ) (xs : List ℚ) :
    (allpass_process aa z xs).1.length = xs.length := by
  induction xs generalizing z with
  | nil => rfl
  | cons a t ih => simp [allpass_process, ih]

/-- The all-pass chain preserves the sample count. -/
theorem chain_length (cs : List ℚ) (zs : List (ℚ × ℚ)) (xs : List ℚ) :
    (chain_process cs zs xs).1.length = xs.length := by
  induction cs generalizing zs xs with
  | nil => rfl
  | cons aa cs ih =>
      cases zs with
      | nil => rfl
      | cons z zs => simp [chain_process, ih, allpass_length]

/-- Processing a concatenation through the all-pass section equals
processing the parts in sequence with the state threaded through. -/
theorem allpass_append (aa : ℚ) (z : ℚ × ℚ) (xs ys : List ℚ) :
    allpass_process aa z (xs ++ ys) =
      ((allpass_process aa z xs).1 ++
        (allpass_process aa (allpass_process aa z xs).2 ys).1,
       (allpass_process aa (allpass_process aa z xs).2 ys).2) := by
  induction xs generalizing z with
  | nil => simp [allpass_process]
  | cons a t ih => simp [allpass_process, ih]

/-- Processing a concatenation through the all-pass chain equals
processing the parts in sequence with all stage states threaded. -/
theorem chain_append (cs : List ℚ) (zs : List (ℚ × ℚ)) (xs ys : List ℚ) :
    chain_process cs zs (xs ++ ys) =
      ((chain_process cs zs xs).1 ++
        (chain_process cs (chain_process cs zs xs).2 ys).1,
       (chain_process cs (chain_process cs zs xs).2 ys).2) := by
  induction cs generalizing zs xs ys with
  | nil => simp [chain_process]
  | cons aa cs ih =>
      cases zs with
      | nil => simp [chain_process]
      | cons z zs =>
          simp only [chain_process, allpass_append]
          rw [ih]

/-- Concatenation through the one-sample delay with the carried sample
threaded through (for nonempty parts). -/
theorem delayOne_append (last : ℚ) (xs ys : List ℚ) (hx : xs ≠ [])
    (hy : ys ≠ []) :
    delayOne last (xs ++ ys) =
      ((delayOne last xs).1 ++ (delayOne (delayOne last xs).2 ys).1,
       (delayOne (delayOne last xs).2 ys).2) := by
  have hlastD : ∀ (l : List ℚ) (d : ℚ), l ≠ [] →
      l.dropLast ++ [l.getLastD d] = l := by
    intro l d hl
    cases l with
    | nil => exact absurd rfl hl
    | cons b t =>
        rw [List.getLastD_eq_getLast?, List.getLast?_eq_getLast _ hl]
        simpa using List.dropLast_append_getLast hl
  have hgl : (xs ++ ys).getLastD last = ys.getLastD (xs.getLastD last) := by
    cases ys with
    | nil => exact absurd rfl hy
    | cons b t =>
        simp [List.getLastD_eq_getLast?, List.getLast?_append_cons,
          List.getLast?_eq_getLast _ hy]
  unfold delayOne
  rw [List.dropLast_append_of_ne_nil xs hy, hgl]
  refine congrArg (fun l => (l, (ys.getLastD (xs.getLastD last)))) ?_
  rw [List.cons_append]
  refine congrArg (fun l => last :: l) ?_
  rw [← hlastD xs last hx]
  simp

/-- A nonempty input keeps the all-pass chain output nonempty. -/
theorem chain_ne_nil (cs : List ℚ) (zs : List (ℚ × ℚ)) (xs : List ℚ)
    (hx : xs ≠ []) : (chain_process cs zs xs).1 ≠ [] := by
  intro h
  apply hx
  have hlen := chain_length cs zs xs
  rw [h] at hlen
  exact List.eq_nil_of_length_eq_zero hlen.symm

/-- Mixing two nonempty channel lists pointwise is nonempty. -/
theorem zipWith_ne_nil (f : ℚ → ℚ → ℚ) (w x : List ℚ) (hw : w ≠ [])
    (hx : x ≠ []) : List.zipWith f w x ≠ [] := by
  intro h
  have hlen := congrArg List.length h
  rw [List.length_zipWith] at hlen
  simp only [List.length_nil] at hlen
  rcases Nat.min_eq_zero_iff.mp hlen.symm.symm with h0 | h0
  · exact hw (List.eq_nil_of_length_eq_zero h0)
  · exact hx (List.eq_nil_of_length_eq_zero h0)

/-- The one-sample delay preserves the sample count of a nonempty
block. -/
theorem delayOne_length (last : ℚ) (xs : List ℚ) (hx : xs ≠ []) :
    (delayOne last xs).1.length = xs.length := by
  cases xs with
  | nil => exact absurd rfl hx
  | cons b t => simp [delayOne]

/-- Splitting the Y pipeline at a block boundary, with the filter states
and the delay register threaded through. -/
theorem pipeY_append (zs : List (ℚ × ℚ)) (last : ℚ) (y1 y2 : List ℚ)
    (h1 : y1 ≠ []) (h2 : y2 ≠ []) :
    pipeY zs last (y1 ++ y2) =
      ((pipeY zs last y1).1 ++
        (pipeY (pipeY zs last y1).2.1 (pipeY zs last y1).2.2 y2).1,
       (pipeY (pipeY zs last y1).2.1 (pipeY zs last y1).2.2 y2).2.1,
       (pipeY (pipeY zs last y1).2.1 (pipeY zs last y1).2.2 y2).2.2) := by
  have hm1 : y1.map (fun v => (0.6554516 : ℚ) * v) ≠ [] := by
    simpa using h1
  have hm2 : y2.map (fun v => (0.6554516 : ℚ) * v) ≠ [] := by
    simpa using h2
  simp only [pipeY]
  rw [List.map_append, chain_append,
    delayOne_append last _ _ (chain_ne_nil _ _ _ hm1)
      (chain_ne_nil _ _ _ hm2)]

/-- Splitting the Filter2 W/X pipeline at a block boundary. -/
theorem pipeWX2_append (zs : List (ℚ × ℚ)) (w1 x1 w2 x2 : List ℚ)
    (hlen : w1.length = x1.length) :
    pipeWX2 zs (w1 ++ w2) (x1 ++ x2) =
      ((pipeWX2 zs w1 x1).1 ++
        (pipeWX2 (pipeWX2 zs w1 x1).2 w2 x2).1,
       (pipeWX2 (pipeWX2 zs w1 x1).2 w2 x2).2) := by
  simp only [pipeWX2]
  rw [List.zipWith_append _ _ _ _ _ hlen, chain_append]

/-- Splitting the S pipeline at a block boundary, with the filter states
and the delay register threaded through. -/
theorem pipeS_append (zs : List (ℚ × ℚ)) (last : ℚ)
    (w1 x1 w2 x2 : List ℚ) (hlen : w1.length = x1.length)
    (hw1 : w1 ≠ []) (hx1 : x1 ≠ []) (hw2 : w2 ≠ []) (hx2 : x2 ≠ []) :
    pipeS zs last (w1 ++ w2) (x1 ++ x2) =
      ((pipeS zs last w1 x1).1 ++
        (pipeS (pipeS zs last w1 x1).2.1 (pipeS zs last w1 x1).2.2 w2
          x2).1,
       (pipeS (pipeS zs last w1 x1).2.1 (pipeS zs last w1 x1).2.2 w2
          x2).2.1,
       (pipeS (pipeS zs last w1 x1).2.1 (pipeS zs last w1 x1).2.2 w2
          x2).2.2) := by
  simp only [pipeS]
  rw [List.zipWith_append _ _ _ _ _ hlen, chain_append,
    delayOne_append last _ _
      (chain_ne_nil _ _ _ (zipWith_ne_nil _ _ _ hw1 hx1))
      (chain_ne_nil _ _ _ (zipWith_ne_nil _ _ _ hw2 hx2))]

/-- Sample-count preservation of the Y pipeline. -/
theorem pipeY_length (zs : List (ℚ × ℚ)) (last : ℚ) (y : List ℚ)
    (hy : y ≠ []) : (pipeY zs last y).1.length = y.length := by
  simp only [pipeY]
  rw [delayOne_length _ _ (chain_ne_nil _ _ _ (by simpa using hy)),
    chain_length, List.length_map]

/-- Sample count of the Filter2 W/X pipeline. -/
theorem pipeWX2_length (zs : List (ℚ × ℚ)) (w x : List ℚ) :
    (pipeWX2 zs w x).1.length = min w.length x.length := by
  simp only [pipeWX2]
  rw [chain_length, List.length_zipWith]

/-- Sample count of the S pipeline. -/
theorem pipeS_length (zs : List (ℚ × ℚ)) (last : ℚ) (w x : List ℚ)
    (hw : w ≠ []) (hx : x ≠ []) :
    (pipeS zs last w x).1.length = min w.length x.length := by
  simp only [pipeS]
  rw [delayOne_length _ _
    (chain_ne_nil _ _ _ (zipWith_ne_nil _ _ _ hw hx)),
    chain_length, List.length_zipWith]

/-- Splitting one encoder block at an inner boundary equals running the
two sub-blocks in sequence with the full encoder state (three filter
banks and both delay registers) threaded through — the order the block
loop of `Uhj2Encoder::encode` (Alc/uhjfilter.cpp) produces. -/
theorem encodeBlock_append (e : Uhj2Encoder)
    (w1 x1 y1 l1 r1 w2 x2 y2 l2 r2 : List ℚ)
    (hx1 : x1.length = w1.length) (hy1 : y1.length = w1.length)
    (hl1 : l1.length = w1.length) (hr1 : r1.length = w1.length)
    (hx2 : x2.length = w2.length) (hy2 : y2.length = w2.length)
    (hw1 : w1 ≠ []) (hw2 : w2 ≠ []) :
    encodeBlock e (w1 ++ w2) (x1 ++ x2) (y1 ++ y2) (l1 ++ l2)
      (r1 ++ r2) =
      ((encodeBlock e w1 x1 y1 l1 r1).1 ++
        (encodeBlock (encodeBlock e w1 x1 y1 l1 r1).2.2 w2 x2 y2 l2
          r2).1,
       (encodeBlock e w1 x1 y1 l1 r1).2.1 ++
        (encodeBlock (encodeBlock e w1 x1 y1 l1 r1).2.2 w2 x2 y2 l2
          r2).2.1,
       (encodeBlock (encodeBlock e w1 x1 y1 l1 r1).2.2 w2 x2 y2 l2
          r2).2.2) := by
  have hw1p : 0 < w1.length := List.length_pos.mpr hw1
  have hw2p : 0 < w2.length := List.length_pos.mpr hw2
  have hx1ne : x1 ≠ [] := List.length_pos.mp (by rw [hx1]; exact hw1p)
  have hy1ne : y1 ≠ [] := List.length_pos.mp (by rw [hy1]; exact hw1p)
  have hx2ne : x2 ≠ [] := List.length_pos.mp (by rw [hx2]; exact hw2p)
  have hy2ne : y2 ≠ [] := List.length_pos.mp (by rw [hy2]; exact hw2p)
  have hpY1 : (pipeY e.mFilter1_Y e.mLastY y1).1.length = w1.length := by
    rw [pipeY_length _ _ _ hy1ne, hy1]
  have hp21 : (pipeWX2 e.mFilter2_WX w1 x1).1.length = w1.length := by
    rw [pipeWX2_length, hx1, Nat.min_self]
  have hpS1 : (pipeS e.mFilter1_WX e.mLastWX w1 x1).1.length =
      w1.length := by
    rw [pipeS_length _ _ _ _ hw1 hx1ne, hx1, Nat.min_self]
  have hdd1 : (List.zipWith (· + ·) (pipeY e.mFilter1_Y e.mLastY y1).1
      (pipeWX2 e.mFilter2_WX w1 x1).1).length = w1.length := by
    rw [List.length_zipWith, hpY1, hp21, Nat.min_self]
  simp only [encodeBlock]
  rw [pipeY_append _ _ _ _ hy1ne hy2ne,
    pipeWX2_append _ _ _ _ _ hx1.symm,
    pipeS_append _ _ _ _ _ _ hx1.symm hw1 hx1ne hw2 hx2ne]
  rw [List.zipWith_append (· + ·) _ _ _ _ (hpY1.trans hp21.symm)]
  rw [List.zipWith_append (fun a b => (a + b) * 0.5) _ _ _ _
    (hpS1.trans hdd1.symm)]
  rw [List.zipWith_append (fun a b => (a - b) * 0.5) _ _ _ _
    (hpS1.trans hdd1.symm)]
  rw [List.zipWith_append (· + ·) l1 l2 _ _ (by
    rw [hl1, List.length_zipWith, hpS1, hdd1, Nat.min_self])]
  rw [List.zipWith_append (· + ·) r1 r2 _ _ (by
    rw [hr1, List.length_zipWith, hpS1, hdd1, Nat.min_self])]

/-- The block loop of `Uhj2Encoder::encode` (Alc/uhjfilter.cpp) computes
the same outputs and final state as processing the whole buffer in one
pass: the 128-sample chunking is invisible because the filter states and
delay registers are threaded across blocks. -/
theorem Uhj2Encoder_encode_eq_block (e : Uhj2Encoder)
    (w x y left right : List ℚ) (hx : x.length = w.length)
    (hy : y.length = w.length) (hl : left.length = w.length)
    (hr : right.length = w.length) :
    Uhj2Encoder_encode e w x y left right =
      encodeBlock e w x y left right := by
  have H : ∀ (n : ℕ) (e : Uhj2Encoder) (w x y left right : List ℚ),
      w.length ≤ n → x.length = w.length → y.length = w.length →
      left.length = w.length → right.length = w.length →
      Uhj2Encoder_encode e w x y left right =
        encodeBlock e w x y left right := by
    intro n
    induction n with
    | zero =>
        intro e w x y left right hn _ _ _ _
        rw [Uhj2Encoder_encode, if_pos (le_trans hn (by norm_num))]
    | succ n ih =>
        intro e w x y left right hn hx hy hl hr
        by_cases h128 : w.length ≤ 128
        · rw [Uhj2Encoder_encode, if_pos h128]
        · rw [Uhj2Encoder_encode, if_neg h128]
          dsimp only
          have hwlen : 128 < w.length := lt_of_not_le h128
          have hdx : (x.drop 128).length = (w.drop 128).length := by
            simp [List.length_drop, hx]
          have hdy : (y.drop 128).length = (w.drop 128).length := by
            simp [List.length_drop, hy]
          have hdl : (left.drop 128).length = (w.drop 128).length := by
            simp [List.length_drop, hl]
          have hdr : (right.drop 128).length = (w.drop 128).length := by
            simp [List.length_drop, hr]
          have hdn : (w.drop 128).length ≤ n := by
            rw [List.length_drop]
            omega
          rw [ih _ _ _ _ _ _ hdn hdx hdy hdl hdr]
          have htx : (x.take 128).length = (w.take 128).length := by
            simp [List.length_take, hx]
          have hty : (y.take 128).length = (w.take 128).length := by
            simp [List.length_take, hy]
          have htl : (left.take 128).length = (w.take 128).length := by
            simp [List.length_take, hl]
          have htr : (right.take 128).length = (w.take 128).length := by
            simp [List.length_take, hr]
          have htw : w.take 128 ≠ [] := by
            apply List.length_pos.mp
            rw [List.length_take]
            omega
          have hdw : w.drop 128 ≠ [] := by
            apply List.length_pos.mp
            rw [List.length_drop]
            omega
          have hsplit := encodeBlock_append e (w.take 128) (x.take 128)
            (y.take 128) (left.take 128) (right.take 128) (w.drop 128)
            (x.drop 128) (y.drop 128) (left.drop 128) (right.drop 128)
            htx hty htl htr hdx hdy htw hdw
          rw [List.take_append_drop, List.take_append_drop,
            List.take_append_drop, List.take_append_drop,
            List.take_append_drop] at hsplit
          rw [hsplit]
  exact H w.length e w x y left right (le_refl _) hx hy hl hr

/-- C9: `Uhj2Encoder::encode` (Alc/uhjfilter.cpp) computes, per sample,
`S = 0.9396926·W + 0.1855740·X` filtered by the Filter1 all-pass chain
and delayed by exactly one sample, and
`D = j(-0.3420201·W + 0.5098604·X) + 0.6554516·Y` where the W/X mix goes
through the Filter2 chain and the Y term through a Filter1 chain with the
same one-sample delay; the squared chain coefficients equal the
documented Filter1/Filter2 constants; the left and right outputs receive
`(S+D)/2` and `(S-D)/2` (accumulated onto the existing output samples);
and the delay registers carry the chains' last processed samples across
calls. -/
theorem Uhj2Encoder_encode_uhj (e : Uhj2Encoder)
    (w x y left right : List ℚ) (hx : x.length = w.length)
    (hy : y.length = w.length) (hl : left.length = w.length)
    (hr : right.length = w.length) :
    Filter1CoeffSqr =
      [0.479400865589, 0.876218493539, 0.976597589508, 0.997499255936] ∧
    Filter2CoeffSqr =
      [0.161758498368, 0.733028932341, 0.945349700329, 0.990599156685] ∧
    (Uhj2Encoder_encode e w x y left right).1 =
      List.zipWith (· + ·) left
        (List.zipWith (fun a b => (a + b) * 0.5)
          (delayOne e.mLastWX
            (chain_process Filter1CoeffSqr e.mFilter1_WX
              (List.zipWith (fun wv xv => 0.9396926 * wv + 0.1855740 * xv)
                w x)).1).1
          (List.zipWith (· + ·)
            (delayOne e.mLastY
              (chain_process Filter1CoeffSqr e.mFilter1_Y
                (y.map (fun v => 0.6554516 * v))).1).1
            (chain_process Filter2CoeffSqr e.mFilter2_WX
              (List.zipWith
                (fun wv xv => -0.3420201 * wv + 0.5098604 * xv)
                w x)).1)) ∧
    (Uhj2Encoder_encode e w x y left right).2.1 =
      List.zipWith (· + ·) right
        (List.zipWith (fun a b => (a - b) * 0.5)
          (delayOne e.mLastWX
            (chain_process Filter1CoeffSqr e.mFilter1_WX
              (List.zipWith (fun wv xv => 0.9396926 * wv + 0.1855740 * xv)
                w x)).1).1
          (List.zipWith (· + ·)
            (delayOne e.mLastY
              (chain_process Filter1CoeffSqr e.mFilter1_Y
                (y.map (fun v => 0.6554516 * v))).1).1
            (chain_process Filter2CoeffSqr e.mFilter2_WX
              (List.zipWith
                (fun wv xv => -0.3420201 * wv + 0.5098604 * xv)
                w x)).1)) ∧
    (Uhj2Encoder_encode e w x y left right).2.2.mLastWX =
      (chain_process Filter1CoeffSqr e.mFilter1_WX
        (List.zipWith (fun wv xv => 0.9396926 * wv + 0.1855740 * xv)
          w x)).1.getLastD e.mLastWX ∧
    (Uhj2Encoder_encode e w x y left right).2.2.mLastY =
      (chain_process Filter1CoeffSqr e.mFilter1_Y
        (y.map (fun v => 0.6554516 * v))).1.getLastD e.mLastY := by
  rw [Uhj2Encoder_encode_eq_block e w x y left right hx hy hl hr]
  refine ⟨rfl, rfl, ?_, ?_, ?_, ?_⟩ <;>
    simp only [encodeBlock, pipeY, pipeWX2, pipeS, delayOne]

/-- The all-zero encoder start state (default-initialized
`Uhj2Encoder`). -/
def uhjZeroState : Uhj2Encoder :=
  { mFilter1_Y := [(0, 0), (0, 0), (0, 0), (0, 0)],
    mFilter2_WX := [(0, 0), (0, 0), (0, 0), (0, 0)],
    mFilter1_WX := [(0, 0), (0, 0), (0, 0), (0, 0)],
    mLastY := 0, mLastWX := 0 }

/-- Witness for the C9 theorem: one sample of W-only input on the
freshly initialized encoder. -/
theorem Uhj2Encoder_encode_uhj_witness :
    (Uhj2Encoder_encode uhjZeroState [1] [0] [0] [0] [0]).1 =
      List.zipWith (· + ·) [0]
        (List.zipWith (fun a b => (a + b) * 0.5)
          (delayOne uhjZeroState.mLastWX
            (chain_process Filter1CoeffSqr uhjZeroState.mFilter1_WX
              (List.zipWith (fun wv xv => 0.9396926 * wv + 0.1855740 * xv)
                [1] [0])).1).1
          (List.zipWith (· + ·)
            (delayOne uhjZeroState.mLastY
              (chain_process Filter1CoeffSqr uhjZeroState.mFilter1_Y
                (List.map (fun v => 0.6554516 * v) [0])).1).1
            (chain_process Filter2CoeffSqr uhjZeroState.mFilter2_WX
              (List.zipWith
                (fun wv xv => -0.3420201 * wv + 0.5098604 * xv)
                [1] [0])).1)) ∧
    (Uhj2Encoder_encode uhjZeroState [1] [0] [0] [0] [0]).2.2.mLastWX =
      (chain_process Filter1CoeffSqr uhjZeroState.mFilter1_WX
        (List.zipWith (fun wv xv => 0.9396926 * wv + 0.1855740 * xv)
          [1] [0])).1.getLastD uhjZeroState.mLastWX := by
  have h := Uhj2Encoder_encode_uhj uhjZeroState [1] [0] [0] [0] [0]
    rfl rfl rfl rfl
  exact ⟨h.2.2.1, h.2.2.2.2.1⟩

end OpenAL
